import Mathlib

/-!
Verification of the causal-versioning core (vector clocks) and the dense
identifier scheme of a CRDT library.

The Rust source is embedded shallowly:
* `BTreeMap<A, u64>` becomes a strictly key-sorted association list
  `List (A × Nat)`; the sortedness and key-uniqueness guaranteed by the
  container are carried as explicit hypotheses (`VClock.Sorted`).
* `u64` counters become `Nat` (the modelled operations only compare and
  take min/max of counters, so no wraparound can occur).
* `BigRational` becomes `ℚ` (both are exact arbitrary-precision rationals).
-/

namespace Crdt

variable {A : Type} [LinearOrder A]

/-- A single causal event: an actor paired with a counter (`Dot` in vclock.rs). -/
structure Dot (A : Type) where
  actor : A
  counter : Nat
deriving DecidableEq

/-- Exact-key lookup with default 0: models
`self.dots.get(actor).cloned().unwrap_or(0)`. -/
def getD (l : List (A × Nat)) (a : A) : Nat :=
  match l with
  | [] => 0
  | p :: rest => if a = p.1 then p.2 else getD rest a

/-- Key-ordered insert-or-replace: models `BTreeMap::insert` on the sorted
association list. -/
def insertK (a : A) (c : Nat) : List (A × Nat) → List (A × Nat)
  | [] => [(a, c)]
  | p :: rest =>
    if a < p.1 then (a, c) :: p :: rest
    else if a = p.1 then (a, c) :: rest
    else p :: insertK a c rest

/-- Remove a key: models `BTreeMap::remove` (keys are unique in a BTreeMap). -/
def eraseK (a : A) : List (A × Nat) → List (A × Nat)
  | [] => []
  | p :: rest => if a = p.1 then rest else p :: eraseK a rest

/-- A vector clock (`VClock` in vclock.rs); `dots` models the
`BTreeMap<A, u64>` field. -/
structure VClock (A : Type) where
  dots : List (A × Nat)
deriving DecidableEq

/-- `VClock::new`. -/
def VClock.new : VClock A := ⟨[]⟩

/-- `VClock::get`: the counter stored for an actor, 0 when absent. -/
def VClock.get (v : VClock A) (a : A) : Nat := getD v.dots a

/-- `VClock::apply_dot`: insert the dot only when its counter is strictly
greater than the stored one. -/
def VClock.apply_dot (v : VClock A) (d : Dot A) : VClock A :=
  if v.get d.actor < d.counter then ⟨insertK d.actor d.counter v.dots⟩ else v

/-- `CmRDT::apply` for VClock forwards to `apply_dot`. -/
def VClock.apply (v : VClock A) (d : Dot A) : VClock A := v.apply_dot d

/-- `CvRDT::merge`: apply every dot of `other` (iterated in ascending key
order) to `self`. -/
def VClock.merge (v other : VClock A) : VClock A :=
  other.dots.foldl (fun acc p => acc.apply_dot ⟨p.1, p.2⟩) v

/-- `Causal::forget`: for each dot of `other`, remove the actor from `self`
whenever the other counter is greater than or equal to the stored one. -/
def VClock.forget (v other : VClock A) : VClock A :=
  other.dots.foldl
    (fun acc p => if acc.get p.1 ≤ p.2 then ⟨eraseK p.1 acc.dots⟩ else acc) v

/-- `VClock::clone_without`: clone, then forget the base clock. -/
def VClock.clone_without (v base : VClock A) : VClock A := v.forget base

/-- `VClock::glb`: keep, per stored actor, the minimum with the other clock,
dropping entries whose minimum is 0. -/
def VClock.glb (v other : VClock A) : VClock A :=
  ⟨v.dots.filterMap fun p =>
    if min p.2 (other.get p.1) = 0 then none
    else some (p.1, min p.2 (other.get p.1))⟩

/-- `VClock::intersection`: collect the left entries whose counter equals the
right clock's counter for the same actor. -/
def VClock.intersection (left right : VClock A) : VClock A :=
  ⟨left.dots.foldl
    (fun dots p => if right.get p.1 = p.2 then insertK p.1 p.2 dots else dots) []⟩

/-- `PartialOrd::partial_cmp` for VClock: equality first, then the two
pointwise domination scans. -/
def VClock.pcmp (v other : VClock A) : Option Ordering :=
  if v = other then some Ordering.eq
  else if other.dots.all fun p => decide (p.2 ≤ v.get p.1) then some Ordering.gt
  else if v.dots.all fun p => decide (p.2 ≤ other.get p.1) then some Ordering.lt
  else none

/-- `VClock::concurrent`: true when `partial_cmp` gives no ordering. -/
def VClock.concurrent (v other : VClock A) : Bool := (v.pcmp other).isNone

/-- `FromIterator<Dot<A>>` for VClock: fold `apply` over the dots. -/
def VClock.from_iter (l : List (Dot A)) : VClock A :=
  l.foldl VClock.apply VClock.new

/-- BTreeMap container invariant: keys strictly ascending (hence unique). -/
def VClock.Sorted (v : VClock A) : Prop :=
  v.dots.Pairwise fun p q => p.1 < q.1

/-- Data-model invariant: entries with counter 0 are never stored. -/
def VClock.NoZeros (v : VClock A) : Prop :=
  ∀ p ∈ v.dots, p.2 ≠ 0

instance (v : VClock A) : Decidable v.Sorted :=
  inferInstanceAs (Decidable (v.dots.Pairwise fun p q : A × Nat => p.1 < q.1))

instance (v : VClock A) : Decidable v.NoZeros :=
  inferInstanceAs (Decidable (∀ p ∈ v.dots, p.2 ≠ 0))

/-- The clocks reachable from `VClock::new` through the public mutators. -/
inductive VClock.Reachable : VClock A → Prop
  | new : VClock.Reachable VClock.new
  | apply (v : VClock A) (d : Dot A) :
      VClock.Reachable v → VClock.Reachable (v.apply d)
  | merge (v w : VClock A) :
      VClock.Reachable v → VClock.Reachable w → VClock.Reachable (v.merge w)
  | forget (v w : VClock A) :
      VClock.Reachable v → VClock.Reachable w → VClock.Reachable (v.forget w)
  | glb (v w : VClock A) :
      VClock.Reachable v → VClock.Reachable w → VClock.Reachable (v.glb w)
  | clone_without (v w : VClock A) :
      VClock.Reachable v → VClock.Reachable w →
      VClock.Reachable (v.clone_without w)
  | from_iter (l : List (Dot A)) : VClock.Reachable (VClock.from_iter l)

/-- `rational_between` from identifier.rs: the midpoint rule for optional
bounds. -/
def rational_between : Option ℚ → Option ℚ → ℚ
  | none, none => 0
  | some low, none => low + 1
  | none, some high => high - 1
  | some low, some high => (low + high) / 2

/-- A dense identifier (`Identifier` in identifier.rs): a path of
(rational, payload) entries. -/
structure Identifier (T : Type) where
  path : List (ℚ × T)
deriving DecidableEq

/-- The both-bounds loop of `Identifier::between`: walk the zipped paths,
copying entries while the rationals agree; at a fork take the midpoint of the
two diverging rationals; when the zip runs out both bounds are `None`. -/
def betweenBoth {T : Type} (elem : T) :
    List (ℚ × T) → List (ℚ × T) → List (ℚ × T)
  | l :: ls, h :: hs =>
    if l.1 = h.1 then l :: betweenBoth elem ls hs
    else [(rational_between (some l.1) (some h.1), elem)]
  | _, _ => [(rational_between none none, elem)]

/-- `Identifier::between`. With at most one bound present the result is a
single entry computed from the first entry of whichever bound exists. -/
def Identifier.between {T : Type} (low high : Option (Identifier T))
    (elem : T) : Identifier T :=
  match low, high with
  | some l, some h => ⟨betweenBoth elem l.path h.path⟩
  | l, h =>
    ⟨[(rational_between (l.bind fun e => e.path.head?.map Prod.fst)
        (h.bind fun e => e.path.head?.map Prod.fst), elem)]⟩

/-- The derived lexicographic strict order on identifier paths: entries are
compared rational-first then payload, and a strict path extension is greater. -/
def pathLt {T : Type} [LinearOrder T] :
    List (ℚ × T) → List (ℚ × T) → Bool
  | _, [] => false
  | [], _ :: _ => true
  | p :: ps, q :: qs =>
    if p.1 < q.1 then true
    else if q.1 < p.1 then false
    else if p.2 < q.2 then true
    else if q.2 < p.2 then false
    else pathLt ps qs

/-- The both-bounds walk as claim C2 words it: a side whose path ran out is
unconstrained, but the surviving side's diverging rational still constrains
the appended midpoint. -/
def betweenBothSpec {T : Type} (elem : T) :
    List (ℚ × T) → List (ℚ × T) → List (ℚ × T)
  | l :: ls, h :: hs =>
    if l.1 = h.1 then l :: betweenBothSpec elem ls hs
    else [(rational_between (some l.1) (some h.1), elem)]
  | [], h :: _ => [(rational_between none (some h.1), elem)]
  | l :: _, [] => [(rational_between (some l.1) none, elem)]
  | [], [] => [(rational_between none none, elem)]

/-- Length of the longest common path segment whose rationals agree. -/
def commonLen {T : Type} : List (ℚ × T) → List (ℚ × T) → Nat
  | l :: ls, h :: hs => if l.1 = h.1 then commonLen ls hs + 1 else 0
  | _, _ => 0

/-- The rational appended by the both-bounds case, phrased through the
diverging position: midpoint of the two diverging rationals when both paths
reach the fork, 0 when either path has run out. -/
def forkRat {T : Type} (lo hi : List (ℚ × T)) : ℚ :=
  match lo[commonLen lo hi]?, hi[commonLen lo hi]? with
  | some l, some h => rational_between (some l.1) (some h.1)
  | _, _ => rational_between none none

/-! ### Association-list lemmas -/

theorem getD_eq_zero_of_forall_not_mem {l : List (A × Nat)} {a : A}
    (h : ∀ c, (a, c) ∉ l) : getD l a = 0 := by
  induction l with
  | nil => rfl
  | cons p rest ih =>
    rw [getD]
    split
    · rename_i heq
      subst heq
      exact absurd (show (p.1, p.2) ∈ p :: rest by simp) (h p.2)
    · exact ih fun c hc => h c (List.mem_cons_of_mem _ hc)

theorem getD_cons_ne {p : A × Nat} {rest : List (A × Nat)} {a : A}
    (h : a ≠ p.1) : getD (p :: rest) a = getD rest a := by
  rw [getD]; simp [h]

theorem mem_self_of_getD_ne_zero {l : List (A × Nat)} {a : A}
    (h : getD l a ≠ 0) : (a, getD l a) ∈ l := by
  induction l with
  | nil => exact absurd rfl h
  | cons p rest ih =>
    by_cases heq : a = p.1
    · subst heq
      rw [getD, if_pos rfl]
      simp
    · rw [getD_cons_ne heq] at h ⊢
      exact List.mem_cons_of_mem _ (ih h)

theorem getD_eq_of_mem {l : List (A × Nat)} {a : A} {c : Nat}
    (hnd : l.Pairwise fun p q => p.1 ≠ q.1) (h : (a, c) ∈ l) :
    getD l a = c := by
  induction l with
  | nil => cases h
  | cons p rest ih =>
    rw [List.pairwise_cons] at hnd
    rw [getD]
    rcases List.mem_cons.mp h with h | h
    · simp [← h]
    · split
      · rename_i heq
        exact absurd (heq ▸ rfl) (hnd.1 _ h)
      · exact ih hnd.2 h

/-! ### insertK lemmas -/

theorem getD_insertK_self {l : List (A × Nat)} {a : A} {c : Nat} :
    getD (insertK a c l) a = c := by
  induction l with
  | nil => simp [insertK, getD]
  | cons p rest ih =>
    rw [insertK]
    split
    · simp [getD]
    · split
      · simp [getD]
      · rename_i hlt heq
        rw [getD_cons_ne heq, ih]

theorem getD_insertK_ne {l : List (A × Nat)} {a b : A} {c : Nat}
    (h : b ≠ a) : getD (insertK a c l) b = getD l b := by
  induction l with
  | nil => simp [insertK, getD, h]
  | cons p rest ih =>
    rw [insertK]
    split
    · rw [getD_cons_ne h]
    · split
      · rename_i hlt heq
        rw [getD_cons_ne h, getD_cons_ne (heq ▸ h)]
      · by_cases hb : b = p.1
        · rw [getD, if_pos hb, getD, if_pos hb]
        · rw [getD_cons_ne hb, getD_cons_ne hb, ih]

theorem mem_insertK {l : List (A × Nat)} {a : A} {c : Nat} {p : A × Nat}
    (h : p ∈ insertK a c l) : p = (a, c) ∨ p ∈ l := by
  induction l with
  | nil => simpa [insertK] using h
  | cons q rest ih =>
    rw [insertK] at h
    split at h
    · rcases List.mem_cons.mp h with h | h
      · exact Or.inl h
      · exact Or.inr h
    · split at h
      · rcases List.mem_cons.mp h with h | h
        · exact Or.inl h
        · exact Or.inr (List.mem_cons_of_mem _ h)
      · rcases List.mem_cons.mp h with h | h
        · exact Or.inr (h ▸ List.mem_cons_self _ _)
        · rcases ih h with h | h
          · exact Or.inl h
          · exact Or.inr (List.mem_cons_of_mem _ h)

theorem sorted_insertK {l : List (A × Nat)} {a : A} {c : Nat}
    (hs : l.Pairwise fun p q => p.1 < q.1) :
    (insertK a c l).Pairwise fun p q => p.1 < q.1 := by
  induction l with
  | nil => simp [insertK]
  | cons q rest ih =>
    rw [List.pairwise_cons] at hs
    rw [insertK]
    split
    · rename_i hlt
      rw [List.pairwise_cons]
      refine ⟨?_, List.pairwise_cons.mpr hs⟩
      intro r hr
      rcases List.mem_cons.mp hr with h | h
      · exact h ▸ hlt
      · exact lt_trans hlt (hs.1 _ h)
    · split
      · rename_i hlt heq
        rw [List.pairwise_cons]
        exact ⟨fun r hr => heq ▸ hs.1 _ hr, hs.2⟩
      · rename_i hlt heq
        have hgt : q.1 < a := by
          rcases lt_trichotomy a q.1 with h | h | h
          · exact absurd h hlt
          · exact absurd h heq
          · exact h
        rw [List.pairwise_cons]
        refine ⟨?_, ih hs.2⟩
        intro r hr
        rcases mem_insertK hr with h | h
        · exact h ▸ hgt
        · exact hs.1 _ h

/-! ### eraseK lemmas -/

theorem eraseK_sublist (a : A) (l : List (A × Nat)) :
    (eraseK a l).Sublist l := by
  induction l with
  | nil => simp [eraseK]
  | cons q rest ih =>
    rw [eraseK]
    split
    · exact List.sublist_cons_self _ _
    · exact ih.cons₂ q

theorem sorted_eraseK {l : List (A × Nat)} {a : A}
    (hs : l.Pairwise fun p q => p.1 < q.1) :
    (eraseK a l).Pairwise fun p q => p.1 < q.1 :=
  hs.sublist (eraseK_sublist a l)

theorem mem_eraseK_iff {l : List (A × Nat)} {a : A} {p : A × Nat}
    (hnd : l.Pairwise fun p q => p.1 ≠ q.1) :
    p ∈ eraseK a l ↔ p ∈ l ∧ p.1 ≠ a := by
  induction l with
  | nil => simp [eraseK]
  | cons q rest ih =>
    rw [List.pairwise_cons] at hnd
    rw [eraseK]
    split
    · rename_i heq
      subst heq
      constructor
      · intro h
        exact ⟨List.mem_cons_of_mem _ h, fun hpq => (hnd.1 _ h) hpq.symm⟩
      · rintro ⟨h, hne⟩
        rcases List.mem_cons.mp h with h | h
        · exact absurd (h ▸ rfl) hne
        · exact h
    · rename_i hne
      constructor
      · intro h
        rcases List.mem_cons.mp h with h | h
        · exact ⟨h ▸ List.mem_cons_self _ _, h ▸ fun hc => hne hc.symm⟩
        · have := (ih hnd.2).mp h
          exact ⟨List.mem_cons_of_mem _ this.1, this.2⟩
      · rintro ⟨h, hpa⟩
        rcases List.mem_cons.mp h with h | h
        · exact h ▸ List.mem_cons_self _ _
        · exact List.mem_cons_of_mem _ ((ih hnd.2).mpr ⟨h, hpa⟩)

theorem getD_eraseK_ne {l : List (A × Nat)} {a b : A}
    (h : b ≠ a) : getD (eraseK a l) b = getD l b := by
  induction l with
  | nil => rfl
  | cons q rest ih =>
    rw [eraseK]
    split
    · rename_i heq
      rw [getD_cons_ne (heq ▸ h)]
    · by_cases hb : b = q.1
      · rw [getD, if_pos hb, getD, if_pos hb]
      · rw [getD_cons_ne hb, getD_cons_ne hb, ih]

/-! ### Extensionality of sorted, zero-free association lists -/

theorem dots_ext {l₁ l₂ : List (A × Nat)}
    (h₁ : l₁.Pairwise fun p q => p.1 < q.1)
    (h₂ : l₂.Pairwise fun p q => p.1 < q.1)
    (z₁ : ∀ p ∈ l₁, p.2 ≠ 0) (z₂ : ∀ p ∈ l₂, p.2 ≠ 0)
    (hg : ∀ a, getD l₁ a = getD l₂ a) : l₁ = l₂ := by
  induction l₁ generalizing l₂ with
  | nil =>
    cases l₂ with
    | nil => rfl
    | cons q r₂ =>
      have h0 := hg q.1
      simp [getD] at h0
      exact absurd h0.symm (z₂ q (List.mem_cons_self _ _))
  | cons p r₁ ih =>
    cases l₂ with
    | nil =>
      have h0 := hg p.1
      simp [getD] at h0
      exact absurd h0 (z₁ p (List.mem_cons_self _ _))
    | cons q r₂ =>
      rw [List.pairwise_cons] at h₁ h₂
      have hp2 : getD (p :: r₁) p.1 = p.2 := by rw [getD, if_pos rfl]
      have hq2 : getD (q :: r₂) q.1 = q.2 := by rw [getD, if_pos rfl]
      have hkey : p.1 = q.1 := by
        rcases lt_trichotomy p.1 q.1 with hlt | heq | hgt
        · exfalso
          have hz : getD (q :: r₂) p.1 = 0 :=
            getD_eq_zero_of_forall_not_mem fun c hc => by
              rcases List.mem_cons.mp hc with h | h
              · exact (ne_of_lt hlt) (show p.1 = q.1 by rw [← h])
              · exact (lt_asymm hlt) (show q.1 < p.1 from h₂.1 (p.1, c) h)
          have h0 := hg p.1
          rw [hp2, hz] at h0
          exact z₁ p (List.mem_cons_self _ _) h0
        · exact heq
        · exfalso
          have hz : getD (p :: r₁) q.1 = 0 :=
            getD_eq_zero_of_forall_not_mem fun c hc => by
              rcases List.mem_cons.mp hc with h | h
              · exact (ne_of_lt hgt) (show q.1 = p.1 by rw [← h])
              · exact (lt_asymm hgt) (show p.1 < q.1 from h₁.1 (q.1, c) h)
          have h0 := hg q.1
          rw [hz, hq2] at h0
          exact z₂ q (List.mem_cons_self _ _) h0.symm
      have hval : p.2 = q.2 := by
        have h0 := hg p.1
        rw [hp2, hkey, hq2] at h0
        exact h0
      have htails : ∀ a, getD r₁ a = getD r₂ a := by
        intro a
        by_cases ha : a = p.1
        · have k₁ : getD r₁ a = 0 :=
            getD_eq_zero_of_forall_not_mem fun c hc =>
              absurd (h₁.1 _ hc) (by simp [ha])
          have k₂ : getD r₂ a = 0 :=
            getD_eq_zero_of_forall_not_mem fun c hc =>
              absurd (h₂.1 _ hc) (by simp [ha, ← hkey])
          rw [k₁, k₂]
        · have h0 := hg a
          rw [getD_cons_ne ha,
            getD_cons_ne (fun h => ha (h.trans hkey.symm))] at h0
          exact h0
      have hhead : p = q := Prod.ext hkey hval
      rw [hhead, ih h₁.2 h₂.2 (fun s hs => z₁ s (List.mem_cons_of_mem _ hs))
        (fun s hs => z₂ s (List.mem_cons_of_mem _ hs)) htails]

omit [LinearOrder A] in
/-- Two vclocks with equal dots lists are equal. -/
theorem VClock.eq_of_dots {v w : VClock A} (h : v.dots = w.dots) : v = w := by
  cases v; cases w; cases h; rfl

/-- Extensionality: sorted zero-free clocks with the same counters are equal. -/
theorem VClock.ext_get {v w : VClock A}
    (hv : v.Sorted) (hw : w.Sorted) (zv : v.NoZeros) (zw : w.NoZeros)
    (h : ∀ a, v.get a = w.get a) : v = w :=
  VClock.eq_of_dots (dots_ext hv hw zv zw h)

/-! ### apply_dot and merge lemmas -/

theorem get_apply_dot (v : VClock A) (b : A) (n : Nat) (a : A) :
    (v.apply_dot ⟨b, n⟩).get a =
      if a = b then max (v.get a) n else v.get a := by
  rw [VClock.apply_dot]
  split
  · rename_i hlt
    by_cases ha : a = b
    · subst ha
      rw [if_pos rfl]
      show getD (insertK a n v.dots) a = max (v.get a) n
      rw [getD_insertK_self, Nat.max_eq_right (le_of_lt hlt)]
    · rw [if_neg ha]
      exact getD_insertK_ne ha
  · rename_i hnlt
    by_cases ha : a = b
    · subst ha
      rw [if_pos rfl, Nat.max_eq_left (Nat.le_of_not_lt hnlt)]
    · rw [if_neg ha]

theorem apply_dot_sorted {v : VClock A} (hs : v.Sorted) (d : Dot A) :
    (v.apply_dot d).Sorted := by
  rw [VClock.apply_dot]
  split
  · exact sorted_insertK hs
  · exact hs

theorem apply_dot_nozeros {v : VClock A} (hz : v.NoZeros) (d : Dot A) :
    (v.apply_dot d).NoZeros := by
  rw [VClock.apply_dot]
  split
  · rename_i hlt
    intro p hp
    rcases mem_insertK hp with h | h
    · have hpos : 0 < d.counter := lt_of_le_of_lt (Nat.zero_le _) hlt
      rw [h]
      exact Nat.pos_iff_ne_zero.mp hpos
    · exact hz p h
  · exact hz

theorem foldl_apply_dot_sorted (l : List (A × Nat)) {v : VClock A}
    (hs : v.Sorted) :
    (l.foldl (fun acc p => acc.apply_dot ⟨p.1, p.2⟩) v).Sorted := by
  induction l generalizing v with
  | nil => exact hs
  | cons p rest ih =>
    rw [List.foldl_cons]
    exact ih (apply_dot_sorted hs _)

theorem foldl_apply_dot_nozeros (l : List (A × Nat)) {v : VClock A}
    (hz : v.NoZeros) :
    (l.foldl (fun acc p => acc.apply_dot ⟨p.1, p.2⟩) v).NoZeros := by
  induction l generalizing v with
  | nil => exact hz
  | cons p rest ih =>
    rw [List.foldl_cons]
    exact ih (apply_dot_nozeros hz _)

theorem get_foldl_apply_dot (l : List (A × Nat))
    (hnd : l.Pairwise fun p q => p.1 ≠ q.1) (v : VClock A) (a : A) :
    (l.foldl (fun acc p => acc.apply_dot ⟨p.1, p.2⟩) v).get a
      = max (v.get a) (getD l a) := by
  induction l generalizing v with
  | nil => simp [getD]
  | cons p rest ih =>
    rw [List.pairwise_cons] at hnd
    rw [List.foldl_cons, ih hnd.2, get_apply_dot]
    by_cases ha : a = p.1
    · have h0 : getD rest a = 0 :=
        getD_eq_zero_of_forall_not_mem fun c hc => (hnd.1 (a, c) hc) ha.symm
      rw [if_pos ha, h0, getD, if_pos ha, Nat.max_zero]
    · rw [if_neg ha, getD_cons_ne ha]

theorem VClock.get_merge {v w : VClock A} (hw : w.Sorted) (a : A) :
    (v.merge w).get a = max (v.get a) (w.get a) :=
  get_foldl_apply_dot w.dots (hw.imp ne_of_lt) v a

theorem VClock.merge_sorted {v : VClock A} (hs : v.Sorted) (w : VClock A) :
    (v.merge w).Sorted :=
  foldl_apply_dot_sorted w.dots hs

theorem VClock.merge_nozeros {v : VClock A} (hz : v.NoZeros) (w : VClock A) :
    (v.merge w).NoZeros :=
  foldl_apply_dot_nozeros w.dots hz

/-! ### forget lemmas -/

theorem getD_of_mem_dots {v : VClock A} (hs : v.Sorted) {p : A × Nat}
    (hp : p ∈ v.dots) : v.get p.1 = p.2 :=
  getD_eq_of_mem (hs.imp ne_of_lt) (by simpa using hp)

theorem forget_foldl_sorted (l : List (A × Nat)) {v : VClock A}
    (hs : v.Sorted) :
    (l.foldl (fun acc q =>
      if acc.get q.1 ≤ q.2 then ⟨eraseK q.1 acc.dots⟩ else acc) v).Sorted := by
  induction l generalizing v with
  | nil => exact hs
  | cons q rest ih =>
    rw [List.foldl_cons]
    refine ih ?_
    split
    · exact sorted_eraseK hs
    · exact hs

theorem forget_foldl_nozeros (l : List (A × Nat)) {v : VClock A}
    (hz : v.NoZeros) :
    (l.foldl (fun acc q =>
      if acc.get q.1 ≤ q.2 then ⟨eraseK q.1 acc.dots⟩ else acc) v).NoZeros := by
  induction l generalizing v with
  | nil => exact hz
  | cons q rest ih =>
    rw [List.foldl_cons]
    refine ih ?_
    split
    · exact fun p hp => hz p ((eraseK_sublist _ _).subset hp)
    · exact hz

theorem mem_forget_foldl (l : List (A × Nat))
    (hndl : l.Pairwise fun p q => p.1 ≠ q.1) {v : VClock A} (hs : v.Sorted)
    (hz : v.NoZeros) (p : A × Nat) :
    p ∈ (l.foldl (fun acc q =>
        if acc.get q.1 ≤ q.2 then ⟨eraseK q.1 acc.dots⟩ else acc) v).dots
      ↔ p ∈ v.dots ∧ getD l p.1 < p.2 := by
  induction l generalizing v with
  | nil =>
    simp only [List.foldl_nil, getD]
    exact ⟨fun h => ⟨h, Nat.pos_of_ne_zero (hz p h)⟩, fun h => h.1⟩
  | cons q rest ih =>
    rw [List.pairwise_cons] at hndl
    rw [List.foldl_cons]
    by_cases hc : v.get q.1 ≤ q.2
    · rw [if_pos hc,
        ih hndl.2 (sorted_eraseK hs)
          (fun r hr => hz r ((eraseK_sublist _ _).subset hr)),
        mem_eraseK_iff (hs.imp ne_of_lt)]
      by_cases hpq : p.1 = q.1
      · constructor
        · rintro ⟨⟨_, hne⟩, _⟩
          exact absurd hpq hne
        · rintro ⟨hpv, hlt⟩
          rw [getD, if_pos hpq] at hlt
          have hget : v.get p.1 = p.2 := getD_of_mem_dots hs hpv
          rw [hpq] at hget
          exact absurd (hget ▸ hc) (Nat.not_le_of_lt hlt)
      · rw [getD_cons_ne hpq]
        exact ⟨fun ⟨⟨hpv, _⟩, hlt⟩ => ⟨hpv, hlt⟩,
          fun ⟨hpv, hlt⟩ => ⟨⟨hpv, hpq⟩, hlt⟩⟩
    · rw [if_neg hc, ih hndl.2 hs hz]
      by_cases hpq : p.1 = q.1
      · have h0 : getD rest p.1 = 0 :=
          getD_eq_zero_of_forall_not_mem fun c hcm =>
            (hndl.1 (p.1, c) hcm) hpq.symm
        rw [h0, getD, if_pos hpq]
        constructor
        · rintro ⟨hpv, _⟩
          refine ⟨hpv, ?_⟩
          have hget : v.get p.1 = p.2 := getD_of_mem_dots hs hpv
          rw [hpq] at hget
          exact hget ▸ Nat.lt_of_not_le hc
        · rintro ⟨hpv, _⟩
          exact ⟨hpv, Nat.pos_of_ne_zero (hz p hpv)⟩
      · rw [getD_cons_ne hpq]

/-! ### glb lemmas -/

theorem getD_glb_filterMap (w : VClock A) (l : List (A × Nat))
    (hnd : l.Pairwise fun p q => p.1 ≠ q.1) (a : A) :
    getD (l.filterMap fun p =>
        if min p.2 (w.get p.1) = 0 then none
        else some (p.1, min p.2 (w.get p.1))) a
      = min (getD l a) (w.get a) := by
  induction l with
  | nil => simp [getD, List.filterMap_nil]
  | cons q rest ih =>
    rw [List.pairwise_cons] at hnd
    by_cases hq : min q.2 (w.get q.1) = 0
    · rw [List.filterMap_cons_none (by simp [hq]), ih hnd.2]
      by_cases ha : a = q.1
      · have h0 : getD rest a = 0 :=
          getD_eq_zero_of_forall_not_mem fun c hc =>
            (hnd.1 (a, c) hc) ha.symm
        rw [h0, Nat.zero_min, getD, if_pos ha, ha, hq]
      · rw [getD_cons_ne ha]
    · have hrw := @List.filterMap_cons_some (A × Nat) (A × Nat)
        (fun p => if min p.2 (w.get p.1) = 0 then none
          else some (p.1, min p.2 (w.get p.1))) q rest
        (q.1, min q.2 (w.get q.1)) (by simp [hq])
      rw [hrw, getD]
      by_cases ha : a = q.1
      · rw [if_pos (show a = (q.1, min q.2 (w.get q.1)).1 from ha), getD,
          if_pos ha, ha]
      · rw [if_neg (show ¬a = (q.1, min q.2 (w.get q.1)).1 from ha),
          getD_cons_ne ha, ih hnd.2]

theorem glb_get {v w : VClock A} (hs : v.Sorted) (a : A) :
    (v.glb w).get a = min (v.get a) (w.get a) :=
  getD_glb_filterMap w v.dots (hs.imp ne_of_lt) a

theorem glb_nozeros (v w : VClock A) : (v.glb w).NoZeros := by
  intro p hp
  rcases List.mem_filterMap.mp hp with ⟨q, hq, hfq⟩
  by_cases h0 : min q.2 (w.get q.1) = 0
  · rw [if_pos h0] at hfq
    cases hfq
  · rw [if_neg h0] at hfq
    cases hfq
    exact h0

theorem glb_sorted {v : VClock A} (hs : v.Sorted) (w : VClock A) :
    (v.glb w).Sorted := by
  refine List.pairwise_filterMap.mpr (hs.imp ?_)
  intro p q hpq x hx y hy
  by_cases h0 : min p.2 (w.get p.1) = 0
  · rw [if_pos h0] at hx
    cases hx
  · rw [if_neg h0] at hx
    by_cases h1 : min q.2 (w.get q.1) = 0
    · rw [if_pos h1] at hy
      cases hy
    · rw [if_neg h1] at hy
      cases hx
      cases hy
      exact hpq

theorem glb_keys_subset (v w : VClock A) {p : A × Nat}
    (hp : p ∈ (v.glb w).dots) : ∃ c, (p.1, c) ∈ v.dots := by
  rcases List.mem_filterMap.mp hp with ⟨q, hq, hfq⟩
  by_cases h0 : min q.2 (w.get q.1) = 0
  · rw [if_pos h0] at hfq
    cases hfq
  · rw [if_neg h0] at hfq
    cases hfq
    exact ⟨q.2, by simpa using hq⟩

omit [LinearOrder A] in
theorem filterMap_eq_self_of {α : Type} {f : α → Option α} {l : List α}
    (h : ∀ p ∈ l, f p = some p) : l.filterMap f = l := by
  induction l with
  | nil => rfl
  | cons q rest ih =>
    rw [List.filterMap_cons_some (h q (List.mem_cons_self _ _)),
      ih fun p hp => h p (List.mem_cons_of_mem _ hp)]

theorem glb_self {v : VClock A} (hs : v.Sorted) (hz : v.NoZeros) :
    v.glb v = v := by
  refine VClock.eq_of_dots ?_
  show v.dots.filterMap _ = v.dots
  refine filterMap_eq_self_of fun p hp => ?_
  have hget : v.get p.1 = p.2 := getD_of_mem_dots hs hp
  rw [hget, min_self, if_neg (hz p hp)]

/-! ### intersection lemmas -/

theorem insertK_append_of_lt {l : List (A × Nat)} {a : A} {c : Nat}
    (h : ∀ p ∈ l, p.1 < a) : insertK a c l = l ++ [(a, c)] := by
  induction l with
  | nil => rfl
  | cons q rest ih =>
    have hq := h q (List.mem_cons_self _ _)
    rw [insertK, if_neg (lt_asymm hq), if_neg (ne_of_gt hq),
      ih fun p hp => h p (List.mem_cons_of_mem _ hp), List.cons_append]

theorem intersection_foldl_eq (r : VClock A) (l : List (A × Nat))
    (hl : l.Pairwise fun p q => p.1 < q.1) :
    ∀ acc : List (A × Nat), (∀ p ∈ acc, ∀ q ∈ l, p.1 < q.1) →
      l.foldl (fun dots p =>
        if r.get p.1 = p.2 then insertK p.1 p.2 dots else dots) acc
        = acc ++ l.filter fun p => decide (r.get p.1 = p.2) := by
  induction l with
  | nil =>
    intro acc _
    simp
  | cons q rest ih =>
    rw [List.pairwise_cons] at hl
    intro acc hacc
    rw [List.foldl_cons]
    by_cases hc : r.get q.1 = q.2
    · have hfc := @List.filter_cons_of_pos _
        (fun p => decide (r.get p.1 = p.2)) q rest (decide_eq_true hc)
      rw [if_pos hc,
        insertK_append_of_lt fun p hp => hacc p hp q (List.mem_cons_self _ _),
        ih hl.2 _ ?_, hfc, List.append_assoc]
      · simp
      · intro p hp s hs
        rcases List.mem_append.mp hp with h | h
        · exact hacc p h s (List.mem_cons_of_mem _ hs)
        · rcases List.mem_singleton.mp h with rfl
          exact hl.1 s hs
    · have hfc := @List.filter_cons_of_neg _
        (fun p => decide (r.get p.1 = p.2)) q rest (by simp [hc])
      rw [if_neg hc,
        ih hl.2 acc fun p hp s hs => hacc p hp s (List.mem_cons_of_mem _ hs),
        hfc]

theorem intersection_eq_filter {l r : VClock A} (hl : l.Sorted) :
    VClock.intersection l r
      = ⟨l.dots.filter fun p => decide (r.get p.1 = p.2)⟩ := by
  refine VClock.eq_of_dots ?_
  show l.dots.foldl _ [] = _
  rw [intersection_foldl_eq r l.dots hl [] (by simp), List.nil_append]

theorem mem_intersection_iff {l r : VClock A} (hl : l.Sorted) (hr : r.Sorted)
    (hzl : l.NoZeros) {p : A × Nat} :
    p ∈ (VClock.intersection l r).dots ↔ p ∈ l.dots ∧ p ∈ r.dots := by
  rw [intersection_eq_filter hl]
  show p ∈ l.dots.filter _ ↔ _
  rw [List.mem_filter]
  constructor
  · rintro ⟨hpl, hpr⟩
    have hc : r.get p.1 = p.2 := of_decide_eq_true hpr
    refine ⟨hpl, ?_⟩
    have hne : r.get p.1 ≠ 0 := hc ▸ hzl p hpl
    have hmem := mem_self_of_getD_ne_zero hne
    have hc' : getD r.dots p.1 = p.2 := hc
    rw [hc'] at hmem
    simpa using hmem
  · rintro ⟨hpl, hpr⟩
    exact ⟨hpl, decide_eq_true (getD_of_mem_dots hr hpr)⟩

theorem intersection_sorted {l : VClock A} (hl : l.Sorted) (r : VClock A) :
    (VClock.intersection l r).Sorted := by
  rw [intersection_eq_filter hl]
  exact hl.sublist (List.filter_sublist _)

theorem intersection_nozeros {l : VClock A} (hl : l.Sorted)
    (hzl : l.NoZeros) (r : VClock A) :
    (VClock.intersection l r).NoZeros := by
  rw [intersection_eq_filter hl]
  intro p hp
  exact hzl p ((List.filter_sublist _).subset hp)

/-! ### partial_cmp helper -/

theorem all_le_iff {v w : VClock A} (hw : w.Sorted) :
    (w.dots.all fun p => decide (p.2 ≤ v.get p.1)) = true
      ↔ ∀ a, w.get a ≤ v.get a := by
  rw [List.all_eq_true]
  constructor
  · intro h a
    by_cases hz : w.get a = 0
    · rw [hz]
      exact Nat.zero_le _
    · have hm := mem_self_of_getD_ne_zero hz
      exact of_decide_eq_true (h _ hm)
  · intro h p hp
    have hget : w.get p.1 = p.2 := getD_of_mem_dots hw hp
    exact decide_eq_true (by rw [← hget]; exact h p.1)

/-! ### reachability invariant -/

omit [LinearOrder A] in
theorem new_nozeros : (VClock.new (A := A)).NoZeros :=
  fun p hp => absurd hp (List.not_mem_nil p)

theorem new_sorted : (VClock.new (A := A)).Sorted :=
  List.Pairwise.nil

theorem foldl_apply_nozeros (l : List (Dot A)) {v : VClock A}
    (hz : v.NoZeros) : (l.foldl VClock.apply v).NoZeros := by
  induction l generalizing v with
  | nil => exact hz
  | cons d rest ih =>
    rw [List.foldl_cons]
    exact ih (apply_dot_nozeros hz d)

theorem reachable_nozeros {v : VClock A} (h : v.Reachable) : v.NoZeros := by
  induction h with
  | new => exact new_nozeros
  | apply v d _ ih => exact apply_dot_nozeros ih d
  | merge v w _ _ ihv ihw => exact VClock.merge_nozeros ihv w
  | forget v w _ _ ihv ihw => exact forget_foldl_nozeros w.dots ihv
  | glb v w _ _ _ _ => exact glb_nozeros v w
  | clone_without v w _ _ ihv _ => exact forget_foldl_nozeros w.dots ihv
  | from_iter l => exact foldl_apply_nozeros l new_nozeros

/-! ### the both-bounds walk, characterized through take and the fork -/

theorem betweenBoth_eq {T : Type} (elem : T) (lo hi : List (ℚ × T)) :
    betweenBoth elem lo hi
      = lo.take (commonLen lo hi) ++ [(forkRat lo hi, elem)] := by
  induction lo generalizing hi with
  | nil => cases hi <;> simp [betweenBoth, commonLen, forkRat]
  | cons l ls ih =>
    cases hi with
    | nil => simp [betweenBoth, commonLen, forkRat]
    | cons h hs =>
      by_cases heq : l.1 = h.1
      · simp only [betweenBoth, commonLen, forkRat, if_pos heq,
          List.getElem?_cons_succ, List.take_succ_cons, List.cons_append,
          ih hs]
      · simp [betweenBoth, commonLen, forkRat, heq]

/-! ### remaining helper lemmas -/

theorem apply_eq (v : VClock A) (d : Dot A) : v.apply d = v.apply_dot d := rfl

theorem getD_ne_zero_of_mem {l : List (A × Nat)} (hz : ∀ p ∈ l, p.2 ≠ 0)
    {a : A} {c : Nat} (h : (a, c) ∈ l) : getD l a ≠ 0 := by
  induction l with
  | nil => cases h
  | cons p rest ih =>
    by_cases ha : a = p.1
    · rw [getD, if_pos ha]
      exact hz p (List.mem_cons_self _ _)
    · rw [getD_cons_ne ha]
      rcases List.mem_cons.mp h with h | h
      · exact absurd (show a = p.1 by rw [← h]) ha
      · exact ih (fun q hq => hz q (List.mem_cons_of_mem _ hq)) h

theorem apply_dot_idem (v : VClock A) (d : Dot A) :
    (v.apply_dot d).apply_dot d = v.apply_dot d := by
  have hge : d.counter ≤ (v.apply_dot d).get d.actor := by
    cases d with
    | mk b n =>
      rw [get_apply_dot, if_pos rfl]
      exact Nat.le_max_right _ _
  rw [VClock.apply_dot, if_neg (Nat.not_lt.mpr hge)]

theorem get_le_foldl_apply (l : List (Dot A)) (v : VClock A) (a : A) :
    v.get a ≤ (l.foldl VClock.apply v).get a := by
  induction l generalizing v with
  | nil => exact le_refl _
  | cons d rest ih =>
    rw [List.foldl_cons]
    refine le_trans ?_ (ih (v.apply d))
    cases d with
    | mk b n =>
      rw [apply_eq, get_apply_dot]
      split
      · exact Nat.le_max_left _ _
      · exact le_refl _

theorem getD_eq_of_mem_iff {l₁ l₂ : List (A × Nat)}
    (h₁ : l₁.Pairwise fun p q => p.1 ≠ q.1)
    (h₂ : l₂.Pairwise fun p q => p.1 ≠ q.1)
    (hm : ∀ p : A × Nat, p ∈ l₁ ↔ p ∈ l₂) (a : A) :
    getD l₁ a = getD l₂ a := by
  by_cases hz : getD l₁ a = 0
  · rw [hz]
    by_cases hz2 : getD l₂ a = 0
    · rw [hz2]
    · have hmem := (hm _).mpr (mem_self_of_getD_ne_zero hz2)
      have heq := getD_eq_of_mem h₁ hmem
      rw [hz] at heq
      exact heq
  · exact (getD_eq_of_mem h₂ ((hm _).mp (mem_self_of_getD_ne_zero hz))).symm

/-! ### partial_cmp characterization -/

theorem pcmp_eq_iff (v w : VClock A) :
    v.pcmp w = some Ordering.eq ↔ v = w := by
  rw [VClock.pcmp]
  by_cases hvw : v = w
  · simp [hvw]
  · rw [if_neg hvw]
    constructor
    · intro h
      exfalso
      split at h
      · exact Ordering.noConfusion (Option.some.inj h)
      · split at h
        · exact Ordering.noConfusion (Option.some.inj h)
        · exact Option.noConfusion h
    · intro h
      exact absurd h hvw

theorem pcmp_gt_iff {v w : VClock A} (hw : w.Sorted) :
    v.pcmp w = some Ordering.gt ↔ v ≠ w ∧ ∀ a, w.get a ≤ v.get a := by
  rw [VClock.pcmp]
  by_cases hvw : v = w
  · rw [if_pos hvw]
    constructor
    · intro h
      exact absurd (Option.some.inj h) (by decide)
    · rintro ⟨hne, _⟩
      exact absurd hvw hne
  · rw [if_neg hvw]
    by_cases hall : (w.dots.all fun p => decide (p.2 ≤ v.get p.1)) = true
    · rw [if_pos hall]
      exact ⟨fun _ => ⟨hvw, (all_le_iff hw).mp hall⟩, fun _ => rfl⟩
    · rw [if_neg hall]
      constructor
      · intro h
        exfalso
        split at h
        · exact Ordering.noConfusion (Option.some.inj h)
        · exact Option.noConfusion h
      · rintro ⟨_, hdom⟩
        exact absurd ((all_le_iff hw).mpr hdom) hall

theorem pcmp_lt_iff {v w : VClock A} (hv : v.Sorted) (hw : w.Sorted)
    (zv : v.NoZeros) (zw : w.NoZeros) :
    v.pcmp w = some Ordering.lt ↔ v ≠ w ∧ ∀ a, v.get a ≤ w.get a := by
  rw [VClock.pcmp]
  by_cases hvw : v = w
  · rw [if_pos hvw]
    constructor
    · intro h
      exact absurd (Option.some.inj h) (by decide)
    · rintro ⟨hne, _⟩
      exact absurd hvw hne
  · rw [if_neg hvw]
    by_cases hall : (w.dots.all fun p => decide (p.2 ≤ v.get p.1)) = true
    · rw [if_pos hall]
      constructor
      · intro h
        exact absurd (Option.some.inj h) (by decide)
      · rintro ⟨_, hdom⟩
        exfalso
        have hdom2 := (all_le_iff hw).mp hall
        exact hvw (VClock.ext_get hv hw zv zw fun a =>
          le_antisymm (hdom a) (hdom2 a))
    · rw [if_neg hall]
      by_cases hall2 : (v.dots.all fun p => decide (p.2 ≤ w.get p.1)) = true
      · rw [if_pos hall2]
        exact ⟨fun _ => ⟨hvw, (all_le_iff (v := w) (w := v) hv).mp hall2⟩,
          fun _ => rfl⟩
      · rw [if_neg hall2]
        constructor
        · intro h
          exact Option.noConfusion h
        · rintro ⟨_, hdom⟩
          exact absurd ((all_le_iff (v := w) (w := v) hv).mpr hdom) hall2

theorem pcmp_none_iff {v w : VClock A} (hv : v.Sorted) (hw : w.Sorted) :
    v.pcmp w = none ↔
      (¬∀ a, w.get a ≤ v.get a) ∧ (¬∀ a, v.get a ≤ w.get a) := by
  rw [VClock.pcmp]
  by_cases hvw : v = w
  · rw [if_pos hvw]
    constructor
    · intro h
      exact Option.noConfusion h
    · rintro ⟨h1, _⟩
      subst hvw
      exact absurd (fun a => le_refl _) h1
  · rw [if_neg hvw]
    by_cases hall : (w.dots.all fun p => decide (p.2 ≤ v.get p.1)) = true
    · rw [if_pos hall]
      constructor
      · intro h
        exact Option.noConfusion h
      · rintro ⟨h1, _⟩
        exact absurd ((all_le_iff hw).mp hall) h1
    · rw [if_neg hall]
      by_cases hall2 : (v.dots.all fun p => decide (p.2 ≤ w.get p.1)) = true
      · rw [if_pos hall2]
        constructor
        · intro h
          exact Option.noConfusion h
        · rintro ⟨_, h2⟩
          exact absurd ((all_le_iff (v := w) (w := v) hv).mp hall2) h2
      · rw [if_neg hall2]
        refine ⟨fun _ => ⟨?_, ?_⟩, fun _ => rfl⟩
        · exact fun hd => hall ((all_le_iff hw).mpr hd)
        · exact fun hd => hall2 ((all_le_iff (v := w) (w := v) hv).mpr hd)

/-! ### Claim theorems -/

/-- C1: the claim states that for all distinct identifiers a < b,
`between(Some a, Some b, elem)` is strictly between a and b.  The code
violates this, contradicting the module documentation and the repository's
own `prop_id_is_dense` property test: for a = [(0,0)] and
b = [(0,0),(-5,1)] (both nonempty, a < b in the derived path order, both
constructible by the public API), the produced identifier [(0,0),(0,2)] is
strictly greater than b instead of lying between a and b. -/
theorem identifier_density_failure :
    pathLt (T := Nat) [(0, 0)] [(0, 0), (-5, 1)] = true
    ∧ (Identifier.between (some ⟨[(0, 0)]⟩) (some ⟨[(0, 0), (-5, 1)]⟩)
        (2 : Nat)).path = [(0, 0), (0, 2)]
    ∧ pathLt (T := Nat) [(0, 0), (-5, 1)] [(0, 0), (0, 2)] = true
    ∧ pathLt (T := Nat) [(0, 0), (0, 2)] [(0, 0), (-5, 1)] = false := by
  refine ⟨by decide, by decide, by decide, by decide⟩

/-- C2 counterexample: the claim states that when one path ends while the
other continues, the surviving side's diverging rational still constrains
the appended midpoint (betweenBothSpec).  On low = [(0,0)],
high = [(0,0),(-5,1)] the code appends rational 0 — not the claimed
rational_between(None, Some(-5)) and not below the surviving bound -5 —
so the code disagrees with the claimed construction at this input. -/
theorem identifier_between_runout_cex :
    (Identifier.between (some ⟨[(0, 0)]⟩) (some ⟨[(0, 0), (-5, 1)]⟩)
        (2 : Nat)).path = [(0, 0), (0, 2)]
    ∧ (⟨betweenBothSpec 2 [((0 : ℚ), (0 : Nat))] [(0, 0), (-5, 1)]⟩
        : Identifier Nat)
        ≠ Identifier.between (some ⟨[(0, 0)]⟩) (some ⟨[(0, 0), (-5, 1)]⟩) 2
    ∧ ¬((0 : ℚ) < -5) := by
  refine ⟨by decide, ?_, by decide⟩
  intro hcontra
  have hpath := congrArg Identifier.path hcontra
  have hcode : (Identifier.between (some ⟨[(0, 0)]⟩)
      (some ⟨[((0 : ℚ), (0 : Nat)), (-5, 1)]⟩) 2).path
      = [(0, 0), (0, 2)] := by decide
  rw [hcode] at hpath
  norm_num [betweenBothSpec, rational_between] at hpath

/-- C2 (amended): with both bounds present, `between` copies the common
prefix of entries whose rational components are equal and appends a single
final entry pairing elem with a rational computed at the diverging
position: the midpoint (l+h)/2 of the two diverging rationals when both
paths reach the fork, and rational_between(None,None) = 0 when either path
has run out — the surviving side's diverging value does NOT constrain the
computation. -/
theorem identifier_between_characterization {T : Type}
    (lo hi : Identifier T) (elem : T) :
    (Identifier.between (some lo) (some hi) elem).path
      = lo.path.take (commonLen lo.path hi.path)
        ++ [(forkRat lo.path hi.path, elem)] :=
  betweenBoth_eq elem lo.path hi.path

/-- C3: forget removes exactly the stored entries whose counter in `other`
is greater than or equal (inclusive) to the stored counter, leaves every
other entry unchanged, and clone_without is forget on a copy (the embedding
is pure, so self is never mutated). -/
theorem vclock_forget_spec :
    ∀ v other : VClock A, v.Sorted → v.NoZeros → other.Sorted →
      (∀ p : A × Nat,
        p ∈ (v.forget other).dots ↔ p ∈ v.dots ∧ other.get p.1 < p.2)
      ∧ v.clone_without other = v.forget other := by
  intro v other hs hz ho
  exact ⟨fun p => mem_forget_foldl other.dots (ho.imp ne_of_lt) hs hz p, rfl⟩

/-- C3 witness. -/
theorem vclock_forget_spec_witness :
    (∀ p : ℕ × Nat,
      p ∈ ((⟨[(1, 2), (2, 3)]⟩ : VClock ℕ).forget ⟨[(1, 2)]⟩).dots
        ↔ p ∈ [(1, 2), (2, 3)] ∧ (⟨[(1, 2)]⟩ : VClock ℕ).get p.1 < p.2)
    ∧ (⟨[(1, 2), (2, 3)]⟩ : VClock ℕ).clone_without ⟨[(1, 2)]⟩
        = (⟨[(1, 2), (2, 3)]⟩ : VClock ℕ).forget ⟨[(1, 2)]⟩ :=
  vclock_forget_spec ⟨[(1, 2), (2, 3)]⟩ ⟨[(1, 2)]⟩
    (by decide) (by decide) (by decide)

/-- C4: merge is commutative, associative and idempotent on vclocks
satisfying the data-model invariants, and the merged counter is the
pointwise maximum. -/
theorem vclock_merge_semilattice :
    ∀ a b c : VClock A,
      a.Sorted → a.NoZeros → b.Sorted → b.NoZeros → c.Sorted → c.NoZeros →
      a.merge b = b.merge a
      ∧ a.merge (b.merge c) = (a.merge b).merge c
      ∧ a.merge a = a
      ∧ ∀ x, (a.merge b).get x = max (a.get x) (b.get x) := by
  intro a b c ha hza hb hzb hc hzc
  refine ⟨?_, ?_, ?_, fun x => VClock.get_merge hb x⟩
  · refine VClock.ext_get (VClock.merge_sorted ha b) (VClock.merge_sorted hb a)
      (VClock.merge_nozeros hza b) (VClock.merge_nozeros hzb a) fun x => ?_
    rw [VClock.get_merge hb, VClock.get_merge ha, Nat.max_comm]
  · refine VClock.ext_get (VClock.merge_sorted ha (b.merge c))
      (VClock.merge_sorted (VClock.merge_sorted ha b) c)
      (VClock.merge_nozeros hza (b.merge c))
      (VClock.merge_nozeros (VClock.merge_nozeros hza b) c) fun x => ?_
    rw [VClock.get_merge (VClock.merge_sorted hb c),
      VClock.get_merge hc, VClock.get_merge hc,
      VClock.get_merge hb, Nat.max_assoc]
  · refine VClock.ext_get (VClock.merge_sorted ha a) ha
      (VClock.merge_nozeros hza a) hza fun x => ?_
    rw [VClock.get_merge ha, Nat.max_self]

/-- C4 witness. -/
theorem vclock_merge_semilattice_witness :
    (⟨[(1, 2)]⟩ : VClock ℕ).merge ⟨[(2, 3)]⟩
      = (⟨[(2, 3)]⟩ : VClock ℕ).merge ⟨[(1, 2)]⟩
    ∧ (⟨[(1, 2)]⟩ : VClock ℕ).merge
        ((⟨[(2, 3)]⟩ : VClock ℕ).merge ⟨[(1, 5)]⟩)
      = ((⟨[(1, 2)]⟩ : VClock ℕ).merge ⟨[(2, 3)]⟩).merge ⟨[(1, 5)]⟩
    ∧ (⟨[(1, 2)]⟩ : VClock ℕ).merge ⟨[(1, 2)]⟩ = ⟨[(1, 2)]⟩
    ∧ ∀ x, ((⟨[(1, 2)]⟩ : VClock ℕ).merge ⟨[(2, 3)]⟩).get x
        = max ((⟨[(1, 2)]⟩ : VClock ℕ).get x) ((⟨[(2, 3)]⟩ : VClock ℕ).get x) :=
  vclock_merge_semilattice ⟨[(1, 2)]⟩ ⟨[(2, 3)]⟩ ⟨[(1, 5)]⟩
    (by decide) (by decide) (by decide) (by decide) (by decide) (by decide)

/-- C5: apply updates the stored counter to dot.counter exactly when it is
strictly greater than the stored value and is a no-op otherwise; it is
idempotent; afterwards the counter is at least dot.counter; other actors
are untouched; and no sequence of applies ever decreases any counter. -/
theorem vclock_apply_spec :
    ∀ (v : VClock A) (b : A) (n : Nat),
      (v.get b < n → (v.apply ⟨b, n⟩).get b = n)
      ∧ (¬v.get b < n → v.apply ⟨b, n⟩ = v)
      ∧ (∀ x, x ≠ b → (v.apply ⟨b, n⟩).get x = v.get x)
      ∧ (v.apply ⟨b, n⟩).apply ⟨b, n⟩ = v.apply ⟨b, n⟩
      ∧ n ≤ (v.apply ⟨b, n⟩).get b
      ∧ ∀ (l : List (Dot A)) (x : A),
          v.get x ≤ (l.foldl VClock.apply v).get x := by
  intro v b n
  refine ⟨?_, ?_, ?_, apply_dot_idem v ⟨b, n⟩, ?_,
    fun l x => get_le_foldl_apply l v x⟩
  · intro h
    rw [apply_eq, get_apply_dot, if_pos rfl, Nat.max_eq_right (le_of_lt h)]
  · intro h
    rw [apply_eq, VClock.apply_dot, if_neg h]
  · intro x hx
    rw [apply_eq, get_apply_dot, if_neg hx]
  · rw [apply_eq, get_apply_dot, if_pos rfl]
    exact Nat.le_max_right _ _

/-- C5 witness. -/
theorem vclock_apply_spec_witness :
    ((⟨[(1, 2)]⟩ : VClock ℕ).get 1 < 5
      ∧ ((⟨[(1, 2)]⟩ : VClock ℕ).apply ⟨1, 5⟩).get 1 = 5)
    ∧ (¬(⟨[(1, 2)]⟩ : VClock ℕ).get 1 < 2
      ∧ (⟨[(1, 2)]⟩ : VClock ℕ).apply ⟨1, 2⟩ = ⟨[(1, 2)]⟩) :=
  ⟨⟨by decide, (vclock_apply_spec ⟨[(1, 2)]⟩ 1 5).1 (by decide)⟩,
    ⟨by decide, (vclock_apply_spec ⟨[(1, 2)]⟩ 1 2).2.1 (by decide)⟩⟩

/-- C6: partial_cmp returns Equal exactly on identical clocks, Greater and
Less exactly on strict pointwise domination of one distinct clock by the
other, None exactly when neither side dominates, and concurrent is exactly
partial_cmp being None. -/
theorem vclock_pcmp_spec :
    ∀ v w : VClock A, v.Sorted → v.NoZeros → w.Sorted → w.NoZeros →
      (v.pcmp w = some Ordering.eq ↔ v = w)
      ∧ (v.pcmp w = some Ordering.gt ↔ v ≠ w ∧ ∀ a, w.get a ≤ v.get a)
      ∧ (v.pcmp w = some Ordering.lt ↔ v ≠ w ∧ ∀ a, v.get a ≤ w.get a)
      ∧ (v.pcmp w = none ↔
          (¬∀ a, w.get a ≤ v.get a) ∧ (¬∀ a, v.get a ≤ w.get a))
      ∧ (v.concurrent w = true ↔ v.pcmp w = none) := by
  intro v w hv zv hw zw
  exact ⟨pcmp_eq_iff v w, pcmp_gt_iff hw, pcmp_lt_iff hv hw zv zw,
    pcmp_none_iff hv hw, Option.isNone_iff_eq_none⟩

/-- C6 witness. -/
theorem vclock_pcmp_spec_witness :
    ((⟨[(1, 2)]⟩ : VClock ℕ).pcmp ⟨[(2, 3)]⟩ = some Ordering.eq
      ↔ (⟨[(1, 2)]⟩ : VClock ℕ) = ⟨[(2, 3)]⟩)
    ∧ ((⟨[(1, 2)]⟩ : VClock ℕ).pcmp ⟨[(2, 3)]⟩ = some Ordering.gt
      ↔ (⟨[(1, 2)]⟩ : VClock ℕ) ≠ ⟨[(2, 3)]⟩
        ∧ ∀ a, (⟨[(2, 3)]⟩ : VClock ℕ).get a ≤ (⟨[(1, 2)]⟩ : VClock ℕ).get a)
    ∧ ((⟨[(1, 2)]⟩ : VClock ℕ).pcmp ⟨[(2, 3)]⟩ = some Ordering.lt
      ↔ (⟨[(1, 2)]⟩ : VClock ℕ) ≠ ⟨[(2, 3)]⟩
        ∧ ∀ a, (⟨[(1, 2)]⟩ : VClock ℕ).get a ≤ (⟨[(2, 3)]⟩ : VClock ℕ).get a)
    ∧ ((⟨[(1, 2)]⟩ : VClock ℕ).pcmp ⟨[(2, 3)]⟩ = none
      ↔ (¬∀ a, (⟨[(2, 3)]⟩ : VClock ℕ).get a ≤ (⟨[(1, 2)]⟩ : VClock ℕ).get a)
        ∧ ¬∀ a, (⟨[(1, 2)]⟩ : VClock ℕ).get a ≤ (⟨[(2, 3)]⟩ : VClock ℕ).get a)
    ∧ ((⟨[(1, 2)]⟩ : VClock ℕ).concurrent ⟨[(2, 3)]⟩ = true
      ↔ (⟨[(1, 2)]⟩ : VClock ℕ).pcmp ⟨[(2, 3)]⟩ = none) :=
  vclock_pcmp_spec ⟨[(1, 2)]⟩ ⟨[(2, 3)]⟩
    (by decide) (by decide) (by decide) (by decide)

/-- C7: after glb the counter for every actor is the pointwise minimum,
actors whose minimum is 0 are entirely absent, glb introduces no actor
absent from both inputs, and glb of a clock with itself is the identity. -/
theorem vclock_glb_spec :
    ∀ a b : VClock A, a.Sorted → a.NoZeros →
      (∀ x, (a.glb b).get x = min (a.get x) (b.get x))
      ∧ (∀ x, min (a.get x) (b.get x) = 0 → ∀ c, (x, c) ∉ (a.glb b).dots)
      ∧ (∀ p ∈ (a.glb b).dots,
          (∃ c, (p.1, c) ∈ a.dots) ∨ (∃ c, (p.1, c) ∈ b.dots))
      ∧ a.glb a = a := by
  intro a b ha hza
  refine ⟨glb_get ha, ?_, ?_, glb_self ha hza⟩
  · intro x hmin c hc
    have hz := glb_nozeros a b _ hc
    have hgd : (a.glb b).get x = c := getD_of_mem_dots (glb_sorted ha b) hc
    rw [glb_get ha, hmin] at hgd
    exact hz hgd.symm
  · intro p hp
    exact Or.inl (glb_keys_subset a b hp)

/-- C7 witness. -/
theorem vclock_glb_spec_witness :
    (∀ x, ((⟨[(23, 6), (43, 1), (89, 14)]⟩ : VClock ℕ).glb
        ⟨[(23, 6), (89, 14)]⟩).get x
      = min ((⟨[(23, 6), (43, 1), (89, 14)]⟩ : VClock ℕ).get x)
          ((⟨[(23, 6), (89, 14)]⟩ : VClock ℕ).get x))
    ∧ (∀ x, min ((⟨[(23, 6), (43, 1), (89, 14)]⟩ : VClock ℕ).get x)
          ((⟨[(23, 6), (89, 14)]⟩ : VClock ℕ).get x) = 0 →
        ∀ c, (x, c) ∉ ((⟨[(23, 6), (43, 1), (89, 14)]⟩ : VClock ℕ).glb
          ⟨[(23, 6), (89, 14)]⟩).dots)
    ∧ (∀ p ∈ ((⟨[(23, 6), (43, 1), (89, 14)]⟩ : VClock ℕ).glb
          ⟨[(23, 6), (89, 14)]⟩).dots,
        (∃ c, (p.1, c) ∈ [(23, 6), (43, 1), (89, 14)])
        ∨ (∃ c, (p.1, c) ∈ [(23, 6), (89, 14)]))
    ∧ (⟨[(23, 6), (43, 1), (89, 14)]⟩ : VClock ℕ).glb
        ⟨[(23, 6), (43, 1), (89, 14)]⟩ = ⟨[(23, 6), (43, 1), (89, 14)]⟩ :=
  vclock_glb_spec ⟨[(23, 6), (43, 1), (89, 14)]⟩ ⟨[(23, 6), (89, 14)]⟩
    (by decide) (by decide)

/-- C8: the midpoint rule is L+1 / H-1 / 0 / (L+H)/2 for the four bound
configurations, and with at most one identifier bound the result is a
single-entry path computed from the first entry (not the last) of the
existing bound; in particular between(None,None,·) has rational 0 and
between applied to that result and None has rational 1. -/
theorem identifier_midpoint_rule :
    (∀ l : ℚ, rational_between (some l) none = l + 1)
    ∧ (∀ h : ℚ, rational_between none (some h) = h - 1)
    ∧ rational_between none none = 0
    ∧ (∀ l h : ℚ, rational_between (some l) (some h) = (l + h) / 2)
    ∧ (∀ (T : Type) (r : ℚ) (t : T) (rest : List (ℚ × T)) (e : T),
        Identifier.between (some ⟨(r, t) :: rest⟩) none e = ⟨[(r + 1, e)]⟩
        ∧ Identifier.between none (some ⟨(r, t) :: rest⟩) e = ⟨[(r - 1, e)]⟩)
    ∧ (∀ (T : Type) (e : T),
        Identifier.between (T := T) none none e = ⟨[(0, e)]⟩)
    ∧ Identifier.between none none (0 : Nat) = ⟨[(0, 0)]⟩
    ∧ Identifier.between
        (some (Identifier.between none none (0 : Nat))) none 1 = ⟨[(1, 1)]⟩ := by
  refine ⟨fun l => rfl, fun h => rfl, rfl, fun l h => rfl,
    fun T r t rest e => ⟨rfl, rfl⟩, fun T e => rfl, rfl, ?_⟩
  norm_num [Identifier.between, rational_between]

/-- C9: every clock reachable from new through apply, merge, forget, glb,
clone_without and from_iter stores no zero counters: get is 0 exactly when
the actor is absent from the dots map. -/
theorem vclock_zero_iff_absent :
    ∀ v : VClock A, v.Reachable →
      ∀ x : A, (v.get x = 0 ↔ ∀ c : Nat, (x, c) ∉ v.dots) := by
  intro v h x
  constructor
  · intro h0 c hc
    exact getD_ne_zero_of_mem (reachable_nozeros h) hc h0
  · intro habs
    exact getD_eq_zero_of_forall_not_mem habs

/-- C9 witness. -/
theorem vclock_zero_iff_absent_witness :
    ((VClock.new (A := ℕ)).apply ⟨1, 2⟩).get 5 = 0
      ↔ ∀ c : Nat, ((5 : ℕ), c) ∉ ((VClock.new (A := ℕ)).apply ⟨1, 2⟩).dots :=
  vclock_zero_iff_absent _
    (VClock.Reachable.apply _ _ VClock.Reachable.new) 5

/-- C10: on zero-free clocks intersection is commutative and contains
exactly the entries common to both clocks, even though the implementation
iterates only over the left argument. -/
theorem vclock_intersection_comm :
    ∀ a b : VClock A, a.Sorted → a.NoZeros → b.Sorted → b.NoZeros →
      VClock.intersection a b = VClock.intersection b a
      ∧ ∀ p : A × Nat, p ∈ (VClock.intersection a b).dots
          ↔ p ∈ a.dots ∧ p ∈ b.dots := by
  intro a b ha hza hb hzb
  have hmem : ∀ p : A × Nat,
      p ∈ (VClock.intersection a b).dots ↔ p ∈ a.dots ∧ p ∈ b.dots :=
    fun p => mem_intersection_iff ha hb hza
  have hmem2 : ∀ p : A × Nat,
      p ∈ (VClock.intersection b a).dots ↔ p ∈ b.dots ∧ p ∈ a.dots :=
    fun p => mem_intersection_iff hb ha hzb
  refine ⟨VClock.eq_of_dots ?_, hmem⟩
  refine getD_eq_of_mem_iff
    ((intersection_sorted ha b).imp ne_of_lt)
    ((intersection_sorted hb a).imp ne_of_lt)
    (fun p => (hmem p).trans (and_comm.trans (hmem2 p).symm)) |>
      fun hgd => dots_ext (intersection_sorted ha b) (intersection_sorted hb a)
        (intersection_nozeros ha hza b) (intersection_nozeros hb hzb a) hgd

/-- C10 witness. -/
theorem vclock_intersection_comm_witness :
    VClock.intersection (⟨[(1, 2), (2, 3)]⟩ : VClock ℕ) ⟨[(1, 2), (2, 4)]⟩
      = VClock.intersection ⟨[(1, 2), (2, 4)]⟩ ⟨[(1, 2), (2, 3)]⟩
    ∧ ∀ p : ℕ × Nat,
        p ∈ (VClock.intersection (⟨[(1, 2), (2, 3)]⟩ : VClock ℕ)
          ⟨[(1, 2), (2, 4)]⟩).dots
        ↔ p ∈ [(1, 2), (2, 3)] ∧ p ∈ [(1, 2), (2, 4)] :=
  vclock_intersection_comm ⟨[(1, 2), (2, 3)]⟩ ⟨[(1, 2), (2, 4)]⟩
    (by decide) (by decide) (by decide) (by decide)

end Crdt
